import Mathlib

/-!
Verification of the allocation planning engine of the `valence` stake-pool
rebalancer (the interactive TUI in the repository's main module).

Numbers: the source manipulates JavaScript numbers holding SOL amounts with
nine significant fractional digits ("lamport precision").  The embedding uses
exact rationals (`ℚ`); `Math.round` is `round : ℚ → ℤ` (both round half-up),
and the literal `0.01` is `1/100`.

The data model mirrors the source records field by field: `targetBalance`
and `action` are optional in the source (`targetBalance?: number`,
`action?: 'remove' | 'keep' | 'add'`), and every read of `targetBalance`
goes through the source's `?? activeBalance` (existing validators) or `?? 0`
(new validators) fallback, embedded as `Option.getD`.
-/

namespace Valence

/-- Lifecycle tag of a validator record (`action` field of `ValidatorData`). -/
inductive VAction where
  | keep
  | remove
  | add
deriving DecidableEq, Repr

/-- `ValidatorData` from the source: one validator's balances and edit state. -/
structure VRec where
  voteAccount : String
  name : Option String
  stakeAccount : String
  activeBalance : ℚ
  activeBalanceLamports : String
  transientStakeAccount : String
  transientBalance : ℚ
  transientBalanceLamports : String
  targetBalance : Option ℚ
  action : Option VAction
deriving DecidableEq, Repr

/-- `EditState` from the source: the aggregate the operator mutates. -/
structure EditState where
  validators : List VRec
  newValidators : List VRec
  reserveAccount : String
  reserveBalance : ℚ
deriving DecidableEq, Repr

/-- `roundToLamports(sol) = Math.round(sol * 1_000_000_000) / 1_000_000_000`. -/
def roundToLamports (x : ℚ) : ℚ :=
  ((round (x * 1000000000) : ℤ) : ℚ) / 1000000000

/-- The source's `v.targetBalance ?? v.activeBalance` read of an existing
validator's target. -/
def effTarget (v : VRec) : ℚ :=
  v.targetBalance.getD v.activeBalance

/-- The source's `v.targetBalance ?? 0` read of a new validator's target. -/
def newEffTarget (v : VRec) : ℚ :=
  v.targetBalance.getD 0

/-- `v.action === 'remove'`. -/
def isRemoved (v : VRec) : Bool :=
  v.action == some VAction.remove

/-- `removedStake`: summed `activeBalance` of validators marked `remove`. -/
def removedStakeOf (s : EditState) : ℚ :=
  ((s.validators.filter (fun v => isRemoved v)).map (fun v => v.activeBalance)).sum

/-- Sum of effective targets over a list of records. -/
def sumT (vs : List VRec) : ℚ :=
  (vs.map effTarget).sum

/-- `state.validators.filter(v => v.action !== 'remove')`. -/
def activeFilter (vs : List VRec) : List VRec :=
  vs.filter (fun v => !(isRemoved v))

/-- Summed effective target of the non-removed validators. -/
def sumTActive (vs : List VRec) : ℚ :=
  sumT (activeFilter vs)

/-- Summed effective target of the validators marked `remove`. -/
def sumTRemoved (vs : List VRec) : ℚ :=
  sumT (vs.filter (fun v => isRemoved v))

/-- Effective target of the record at position `i` (`0` out of range). -/
def keyAt (vs : List VRec) (i : Nat) : ℚ :=
  match vs.get? i with
  | some v => effTarget v
  | none => 0

/-- Whether position `i` holds a non-removed record. -/
def activeAt (vs : List VRec) (i : Nat) : Bool :=
  match vs.get? i with
  | some v => !(isRemoved v)
  | none => false

/-- Positions of the non-removed records, in storage order. -/
def activeIndices (vs : List VRec) : List Nat :=
  (List.range vs.length).filter (activeAt vs)

/-- Processing order of `autoRebalance`: ascending effective target, ties by
original position.  The source sorts the filtered array with the stable
`Array.prototype.sort((a, b) => ta - tb)`; a stable sort by key is exactly the
sort by the lexicographic order on (key, original position). -/
def idxLe (vs : List VRec) (i j : Nat) : Prop :=
  keyAt vs i < keyAt vs j ∨ (keyAt vs i = keyAt vs j ∧ i ≤ j)

instance (vs : List VRec) : DecidableRel (idxLe vs) := fun i j => by
  unfold idxLe
  infer_instance

/-- The sorted list of active positions walked by `autoRebalance`. -/
def rebalanceOrder (vs : List VRec) : List Nat :=
  List.insertionSort (idxLe vs) (activeIndices vs)

/-- The distribution loop of `autoRebalance`: walk the sorted active
positions; stop once the remaining pool is exhausted; fill each validator's
deficit `per - effTarget v` (capped by the remaining pool), rounding the new
target and the remaining pool to lamports after each transfer. -/
def distribute (per : ℚ) : List Nat → List VRec → ℚ → List VRec × ℚ
  | [], vs, rem => (vs, rem)
  | i :: is, vs, rem =>
    if rem ≤ 0 then (vs, rem)
    else
      match vs.get? i with
      | none => distribute per is vs rem
      | some v =>
        if 0 < per - effTarget v then
          distribute per is
            (vs.set i { v with targetBalance := some (roundToLamports (effTarget v + min (per - effTarget v) rem)) })
            (roundToLamports (rem - min (per - effTarget v) rem))
        else
          distribute per is vs rem

/-- The residue loop of `autoRebalance`: add `per` to every active validator's
target, rounding each. -/
def residue (per : ℚ) : List Nat → List VRec → List VRec
  | [], vs => vs
  | i :: is, vs =>
    match vs.get? i with
    | none => residue per is vs
    | some v =>
      residue per is
        (vs.set i { v with targetBalance := some (roundToLamports (effTarget v + per)) })

/-- `targetPerValidator`: equal share of the active stake plus the freed
stake, computed over the sorted active list. -/
def targetPer (s : EditState) : ℚ :=
  (((rebalanceOrder s.validators).map (keyAt s.validators)).sum + removedStakeOf s) /
    ((rebalanceOrder s.validators).length : ℚ)

/-- The distribution pass of `autoRebalance` on the sorted active list. -/
def distributed (s : EditState) : List VRec × ℚ :=
  distribute (targetPer s) (rebalanceOrder s.validators) s.validators (removedStakeOf s)

/-- The validator list produced by the body of `autoRebalance`: the
distribution pass, then — when rounding left some of the pool — one equal
residue pass over the same active list. -/
def rebalancedValidators (s : EditState) : List VRec :=
  if 0 < (distributed s).2 then
    residue ((distributed s).2 / ((rebalanceOrder s.validators).length : ℚ))
      (rebalanceOrder s.validators) (distributed s).1
  else (distributed s).1

/-- `autoRebalance(state)`: redistribute the stake freed by validators marked
`remove` over the non-removed validators, lowest target first.  No-op (with a
printed message) when no stake is freed or no active validator exists. -/
def autoRebalance (s : EditState) : EditState :=
  if removedStakeOf s = 0 then s
  else if (rebalanceOrder s.validators).isEmpty then s
  else { s with validators := rebalancedValidators s }

/-- `validate(state)`: the feasibility gate.  `true` means the plan passed. -/
def validate (s : EditState) : Bool :=
  let totalTarget := sumTActive s.validators
  let newValidatorStake := (s.newValidators.map newEffTarget).sum
  let totalWithNew := totalTarget + newValidatorStake
  let decreasedStake :=
    ((activeFilter s.validators).map (fun v =>
      let diff := v.activeBalance - effTarget v
      if 0 < diff then diff else 0)).sum
  let removedStake := removedStakeOf s
  let availableReserve := s.reserveBalance + removedStake + decreasedStake
  let activeValidatorCount := (activeFilter s.validators).length + s.newValidators.length
  let minStaked : ℚ := (activeValidatorCount : ℚ)
  let increasedStake :=
    ((activeFilter s.validators).map (fun v =>
      let diff := effTarget v - v.activeBalance
      if 0 < diff then diff else 0)).sum
  let totalNeeded := increasedStake + newValidatorStake
  if availableReserve + 1 / 100 < totalNeeded then false
  else if totalWithNew < minStaked - 1 / 100 then false
  else true

/-- Error kinds surfaced by the command handlers. -/
inductive OpError where
  | invalidIndex
  | invalidOperation
  | duplicateValidator
deriving DecidableEq, Repr

/-- The `r #` handler: mark the existing validator at `i` removed and zero its
target.  An index outside `validators` only prints a message. -/
def markRemoved (s : EditState) (i : Nat) : EditState × Option OpError :=
  match s.validators.get? i with
  | some v =>
    let v' : VRec := { v with action := some VAction.remove, targetBalance := some 0 }
    ({ s with validators := s.validators.set i v' }, none)
  | none => (s, some OpError.invalidIndex)

/-- The `u #` handler: reset the existing validator at `i` to `keep` with its
target equal to its active balance. -/
def undoRemoved (s : EditState) (i : Nat) : EditState × Option OpError :=
  match s.validators.get? i with
  | some v =>
    let v' : VRec := { v with action := some VAction.keep, targetBalance := some v.activeBalance }
    ({ s with validators := s.validators.set i v' }, none)
  | none => (s, some OpError.invalidIndex)

/-- The `s # AMT` handler: set the target at combined index `i` directly, no
rounding, no lifecycle check.  Indices past `validators` address
`newValidators`. -/
def setTarget (s : EditState) (i : Nat) (amount : ℚ) : EditState × Option OpError :=
  match s.validators.get? i with
  | some v =>
    let v' : VRec := { v with targetBalance := some amount }
    ({ s with validators := s.validators.set i v' }, none)
  | none =>
    match s.newValidators.get? (i - s.validators.length) with
    | some nv =>
      let nv' : VRec := { nv with targetBalance := some amount }
      ({ s with newValidators := s.newValidators.set (i - s.validators.length) nv' }, none)
    | none => (s, some OpError.invalidIndex)

/-- The `+ # AMT` handler: add `delta` to the target at combined index `i`,
rounding to lamports; refused for an existing validator marked `remove`. -/
def addToTarget (s : EditState) (i : Nat) (delta : ℚ) : EditState × Option OpError :=
  match s.validators.get? i with
  | some v =>
    if isRemoved v then (s, some OpError.invalidOperation)
    else
      let v' : VRec := { v with targetBalance := some (roundToLamports (effTarget v + delta)) }
      ({ s with validators := s.validators.set i v' }, none)
  | none =>
    match s.newValidators.get? (i - s.validators.length) with
    | some nv =>
      let nv' : VRec :=
        { nv with targetBalance := some (roundToLamports (newEffTarget nv + delta)) }
      ({ s with newValidators := s.newValidators.set (i - s.validators.length) nv' }, none)
    | none => (s, some OpError.invalidIndex)

/-- The `- # AMT` handler: subtract `delta` from the target at combined index
`i`, rounding to lamports; refused for a validator marked `remove` and when
the rounded result would be negative. -/
def subtractFromTarget (s : EditState) (i : Nat) (delta : ℚ) : EditState × Option OpError :=
  match s.validators.get? i with
  | some v =>
    if isRemoved v then (s, some OpError.invalidOperation)
    else
      let newTarget := roundToLamports (effTarget v - delta)
      if newTarget < 0 then (s, some OpError.invalidOperation)
      else
        let v' : VRec := { v with targetBalance := some newTarget }
        ({ s with validators := s.validators.set i v' }, none)
  | none =>
    match s.newValidators.get? (i - s.validators.length) with
    | some nv =>
      let newTarget := roundToLamports (newEffTarget nv - delta)
      if newTarget < 0 then (s, some OpError.invalidOperation)
      else
        let nv' : VRec := { nv with targetBalance := some newTarget }
        ({ s with newValidators := s.newValidators.set (i - s.validators.length) nv' }, none)
    | none => (s, some OpError.invalidIndex)

/-- The record the `a VOTE` handler appends on success. -/
def freshValidator (identity : String) (nm : Option String) : VRec :=
  { voteAccount := identity
    name := nm
    stakeAccount := ""
    activeBalance := 0
    activeBalanceLamports := "0"
    transientStakeAccount := ""
    transientBalance := 0
    transientBalanceLamports := "0"
    targetBalance := some 0
    action := some VAction.add }

/-- The `a VOTE` handler: refuse an identity already present in either list,
otherwise append a fresh record to `newValidators`.  The source's on-chain
vote-account resolution and name lookup are external collaborators; they are
modelled as resolving the given identity to itself. -/
def addValidator (s : EditState) (identity : String) (nm : Option String) :
    EditState × Option OpError :=
  if s.validators.any (fun v => v.voteAccount == identity)
      || s.newValidators.any (fun v => v.voteAccount == identity) then
    (s, some OpError.duplicateValidator)
  else
    ({ s with newValidators := s.newValidators ++ [freshValidator identity nm] }, none)

/-- One operator command of the core mutation surface. -/
inductive Op where
  | opMarkRemoved (i : Nat)
  | opUndoRemoved (i : Nat)
  | opSetTarget (i : Nat) (amount : ℚ)
  | opAddToTarget (i : Nat) (delta : ℚ)
  | opSubtractFromTarget (i : Nat) (delta : ℚ)
  | opAddValidator (identity : String) (nm : Option String)
deriving DecidableEq, Repr

/-- Dispatch one operator command. -/
def applyOp (s : EditState) : Op → EditState × Option OpError
  | Op.opMarkRemoved i => markRemoved s i
  | Op.opUndoRemoved i => undoRemoved s i
  | Op.opSetTarget i amount => setTarget s i amount
  | Op.opAddToTarget i delta => addToTarget s i delta
  | Op.opSubtractFromTarget i delta => subtractFromTarget s i delta
  | Op.opAddValidator identity nm => addValidator s identity nm

/-- The record addressed by combined index `i` (existing first, then new). -/
def combinedRecAt (s : EditState) (i : Nat) : Option VRec :=
  match s.validators.get? i with
  | some v => some v
  | none => s.newValidators.get? (i - s.validators.length)

/-- The current target read at combined index `i`: the `?? activeBalance`
fallback for an existing validator, the `?? 0` fallback for a new one. -/
def combinedCurrent (s : EditState) (i : Nat) : ℚ :=
  match s.validators.get? i with
  | some v => effTarget v
  | none =>
    match s.newValidators.get? (i - s.validators.length) with
    | some nv => newEffTarget nv
    | none => 0

/-- The stored `targetBalance` at combined index `i`. -/
def targetAt (s : EditState) (i : Nat) : Option ℚ :=
  match combinedRecAt s i with
  | some v => v.targetBalance
  | none => none

/-- Invariant I2: an existing validator marked `remove` has target `0`. -/
def I2 (s : EditState) : Prop :=
  ∀ v ∈ s.validators, v.action = some VAction.remove → effTarget v = 0

instance (s : EditState) : Decidable (I2 s) := by
  unfold I2
  exact List.decidableBAll _ s.validators

/-- Everything but the target balance is equal. -/
def EqButTb (v w : VRec) : Prop :=
  w.voteAccount = v.voteAccount ∧ w.name = v.name ∧ w.stakeAccount = v.stakeAccount ∧
  w.activeBalance = v.activeBalance ∧ w.activeBalanceLamports = v.activeBalanceLamports ∧
  w.transientStakeAccount = v.transientStakeAccount ∧ w.transientBalance = v.transientBalance ∧
  w.transientBalanceLamports = v.transientBalanceLamports ∧ w.action = v.action

/-- Same lifecycle action; a removed record is fully unchanged. -/
def ActShape (v w : VRec) : Prop :=
  w.action = v.action ∧ (v.action = some VAction.remove → w = v)

/-- A rational representable at lamport precision. -/
def Lam (x : ℚ) : Prop :=
  ∃ k : ℤ, x = (k : ℚ) / 1000000000

/-- Every effective target in the list is lamport-representable. -/
def LamList (vs : List VRec) : Prop :=
  ∀ v ∈ vs, Lam (effTarget v)

instance (vs : List VRec) : IsTotal Nat (idxLe vs) := ⟨by
  intro i j
  unfold idxLe
  rcases lt_trichotomy (keyAt vs i) (keyAt vs j) with h | h | h
  · exact Or.inl (Or.inl h)
  · rcases Nat.le_total i j with hij | hij
    · exact Or.inl (Or.inr ⟨h, hij⟩)
    · exact Or.inr (Or.inr ⟨h.symm, hij⟩)
  · exact Or.inr (Or.inl h)⟩

instance (vs : List VRec) : IsTrans Nat (idxLe vs) := ⟨by
  intro a b c hab hbc
  unfold idxLe at *
  rcases hab with h1 | ⟨h1, h1a⟩
  · rcases hbc with h2 | ⟨h2, h2a⟩
    · exact Or.inl (h1.trans h2)
    · exact Or.inl (lt_of_lt_of_le h1 (le_of_eq h2))
  · rcases hbc with h2 | ⟨h2, h2a⟩
    · exact Or.inl (lt_of_le_of_lt (le_of_eq h1) h2)
    · exact Or.inr ⟨h1.trans h2, h1a.trans h2a⟩⟩

/-- A bare validator record for concrete test states. -/
def mkV (id : String) (act : ℚ) (tgt : Option ℚ) (a : Option VAction) : VRec :=
  { voteAccount := id
    name := none
    stakeAccount := ""
    activeBalance := act
    activeBalanceLamports := ""
    transientStakeAccount := ""
    transientBalance := 0
    transientBalanceLamports := ""
    targetBalance := tgt
    action := a }

/-- Two active validators at target `0` and one removed validator holding
three lamports: the distribution rounds every half-lamport up and loses
nothing from the pool, tripling the freed stake. -/
def cexConservation : EditState :=
  { validators := [mkV "a" 0 (some 0) (some VAction.keep),
                   mkV "b" 0 (some 0) (some VAction.keep),
                   mkV "c" (3 / 1000000000) (some 0) (some VAction.remove)]
    newValidators := []
    reserveAccount := ""
    reserveBalance := 0 }

/-- A single removed existing validator, with target zero, next to an
untouched active validator. -/
def cexSetTarget : EditState :=
  { validators := [mkV "a" 0 (some 0) (some VAction.remove),
                   mkV "b" 5 (some 5) (some VAction.keep)]
    newValidators := []
    reserveAccount := ""
    reserveBalance := 0 }

/-- A removed validator whose current balance is zero: it frees no stake, so
`autoRebalance` takes its early-return branch. -/
def cexNoop : EditState :=
  { validators := [mkV "a" 0 (some 0) (some VAction.remove),
                   mkV "b" 5 (some 5) (some VAction.keep)]
    newValidators := []
    reserveAccount := ""
    reserveBalance := 0 }

/-- An active validator holding 1.4 lamports of target next to a removed
validator freeing a twentieth of a lamport: rounding the transfer pulls the
active target down to one lamport. -/
def cexMono : EditState :=
  { validators := [mkV "a" 0 (some (14 / 10000000000)) (some VAction.keep),
                   mkV "b" (1 / 20000000000) (some 0) (some VAction.remove)]
    newValidators := []
    reserveAccount := ""
    reserveBalance := 0 }

/-- The spec scenario: active targets `[0, 100, 100]` and 60 freed. -/
def cexFill : EditState :=
  { validators := [mkV "a" 0 (some 0) (some VAction.keep),
                   mkV "b" 100 (some 100) (some VAction.keep),
                   mkV "c" 100 (some 100) (some VAction.keep),
                   mkV "d" 60 (some 0) (some VAction.remove)]
    newValidators := []
    reserveAccount := ""
    reserveBalance := 0 }

/-- A state with one removal feeding one surviving validator: the classic
"remove A, rebalance, B absorbs everything" scenario. -/
def wRemState : EditState :=
  { validators := [mkV "A" 1000 (some 0) (some VAction.remove),
                   mkV "B" 500 (some 500) (some VAction.keep)]
    newValidators := []
    reserveAccount := "R"
    reserveBalance := 0 }

/-- A small feasible state used to witness the operation contracts. -/
def wState : EditState :=
  { validators := [mkV "A" 1000 (some 1000) (some VAction.keep),
                   mkV "B" 500 (some 500) (some VAction.keep)]
    newValidators := []
    reserveAccount := "R"
    reserveBalance := 0 }

/-! ### Rounding facts -/

theorem lam_roundToLamports (x : ℚ) : Lam (roundToLamports x) :=
  ⟨round (x * 1000000000), rfl⟩

theorem roundToLamports_err (x : ℚ) :
    |roundToLamports x - x| ≤ 1 / 2000000000 := by
  have h := abs_sub_round (x * 1000000000)
  rw [abs_sub_comm] at h
  have hx : roundToLamports x - x =
      (((round (x * 1000000000) : ℤ) : ℚ) - x * 1000000000) / 1000000000 := by
    unfold roundToLamports
    ring
  rw [hx, abs_div, abs_of_pos (by norm_num : (0:ℚ) < 1000000000)]
  calc |((round (x * 1000000000) : ℤ) : ℚ) - x * 1000000000| / 1000000000
      ≤ (1 / 2) / 1000000000 := by gcongr
    _ = 1 / 2000000000 := by norm_num

theorem roundToLamports_nonneg {x : ℚ} (hx : 0 ≤ x) : 0 ≤ roundToLamports x := by
  unfold roundToLamports
  apply div_nonneg _ (by norm_num)
  have h0 : (0 : ℤ) ≤ round (x * 1000000000) := by
    rw [round_eq]
    rw [Int.floor_nonneg]
    positivity
  exact_mod_cast h0

theorem lam_le_roundToLamports {t : ℚ} (ht : Lam t) {d : ℚ} (hd : 0 ≤ d) :
    t ≤ roundToLamports (t + d) := by
  obtain ⟨k, rfl⟩ := ht
  unfold roundToLamports
  have h1 : ((k : ℚ) / 1000000000 + d) * 1000000000 = d * 1000000000 + (k : ℚ) := by
    field_simp
    ring
  rw [h1]
  have h2 : round (d * 1000000000 + (k : ℚ)) = round (d * 1000000000) + k := by
    exact_mod_cast round_add_int (d * 1000000000) k
  rw [h2]
  have h3 : (0 : ℤ) ≤ round (d * 1000000000) := by
    rw [round_eq, Int.floor_nonneg]
    positivity
  have h3q : (0 : ℚ) ≤ ((round (d * 1000000000) : ℤ) : ℚ) := by exact_mod_cast h3
  have h4 : (k : ℚ) ≤ ((round (d * 1000000000) + k : ℤ) : ℚ) := by
    push_cast
    linarith
  exact div_le_div_of_nonneg_right h4 (by norm_num)

/-! ### Sum and filter facts about record lists -/

theorem sumT_nil : sumT [] = 0 := rfl

theorem sumT_cons (v : VRec) (l : List VRec) :
    sumT (v :: l) = effTarget v + sumT l := by
  simp [sumT]

theorem sumT_set (vs : List VRec) (i : Nat) (v v' : VRec)
    (h : vs.get? i = some v) :
    sumT (vs.set i v') = sumT vs - effTarget v + effTarget v' := by
  induction vs generalizing i with
  | nil => simp at h
  | cons a l ih =>
    cases i with
    | zero =>
      simp only [List.get?] at h
      cases h
      simp only [List.set]
      rw [sumT_cons, sumT_cons]
      ring
    | succ n =>
      simp only [List.get?] at h
      simp only [List.set]
      rw [sumT_cons, sumT_cons, ih n h]
      ring

theorem effTarget_withTb (v : VRec) (t : ℚ) :
    effTarget { v with targetBalance := some t } = t := rfl

theorem withTb_withTb (v : VRec) (t t' : ℚ) :
    ({ ({ v with targetBalance := some t } : VRec) with targetBalance := some t' } : VRec)
      = { v with targetBalance := some t' } := rfl

theorem sumT_split (vs : List VRec) :
    sumT vs = sumTActive vs + sumTRemoved vs := by
  induction vs with
  | nil => simp [sumT, sumTActive, sumTRemoved, activeFilter]
  | cons a l ih =>
    unfold sumTActive sumTRemoved activeFilter at *
    by_cases h : isRemoved a
    · rw [sumT_cons, List.filter_cons, List.filter_cons, if_neg (by simp [h]),
        if_pos (by simp [h]), sumT_cons, ih]
      ring
    · rw [sumT_cons, List.filter_cons, List.filter_cons, if_pos (by simp [h]),
        if_neg (by simp [h]), sumT_cons, ih]
      ring

theorem distribute_length (per : ℚ) (idxs : List Nat) (vs : List VRec) (rem : ℚ) :
    (distribute per idxs vs rem).1.length = vs.length := by
  induction idxs generalizing vs rem with
  | nil => rfl
  | cons i is ih =>
    simp only [distribute]
    by_cases hrem : rem ≤ 0
    · rw [if_pos hrem]
    · rw [if_neg hrem]
      cases hv : vs.get? i with
      | none => exact ih vs rem
      | some v =>
        dsimp only
        by_cases hd : 0 < per - effTarget v
        · rw [if_pos hd]
          rw [ih]
          exact List.length_set vs i _
        · rw [if_neg hd]
          exact ih vs rem

theorem eqButTb_refl (v : VRec) : EqButTb v v := by
  refine ⟨rfl, rfl, rfl, rfl, rfl, rfl, rfl, rfl, rfl⟩

theorem eqButTb_withTb (v : VRec) (t : ℚ) :
    EqButTb v { v with targetBalance := some t } := by
  refine ⟨rfl, rfl, rfl, rfl, rfl, rfl, rfl, rfl, rfl⟩

theorem eqButTb_trans {u v w : VRec} (h1 : EqButTb u v) (h2 : EqButTb v w) : EqButTb u w := by
  obtain ⟨a1, a2, a3, a4, a5, a6, a7, a8, a9⟩ := h1
  obtain ⟨b1, b2, b3, b4, b5, b6, b7, b8, b9⟩ := h2
  exact ⟨b1.trans a1, b2.trans a2, b3.trans a3, b4.trans a4, b5.trans a5,
    b6.trans a6, b7.trans a7, b8.trans a8, b9.trans a9⟩

theorem distribute_pointwise (per : ℚ) (idxs : List Nat) (vs : List VRec) (rem : ℚ) (j : Nat) :
    (distribute per idxs vs rem).1.get? j = vs.get? j ∨
      (j ∈ idxs ∧ ∃ v w, vs.get? j = some v ∧
        (distribute per idxs vs rem).1.get? j = some w ∧ EqButTb v w) := by
  induction idxs generalizing vs rem with
  | nil => left; rfl
  | cons i is ih =>
    simp only [distribute]
    by_cases hrem : rem ≤ 0
    · rw [if_pos hrem]; left; rfl
    · rw [if_neg hrem]
      cases hv : vs.get? i with
      | none =>
        rcases ih vs rem with h | ⟨hm, v, w, h1, h2, h3⟩
        · left; exact h
        · right; exact ⟨List.mem_cons_of_mem _ hm, v, w, h1, h2, h3⟩
      | some v =>
        dsimp only
        by_cases hd : 0 < per - effTarget v
        · rw [if_pos hd]
          rcases ih (vs.set i { v with targetBalance := some (roundToLamports (effTarget v + min (per - effTarget v) rem)) }) (roundToLamports (rem - min (per - effTarget v) rem)) with h | ⟨hm, u, w, h1, h2, h3⟩
          · by_cases hij : j = i
            · subst hij
              right
              refine ⟨List.mem_cons_self _ _, v,
                { v with targetBalance := some (roundToLamports (effTarget v + min (per - effTarget v) rem)) },
                hv, ?_, eqButTb_withTb v _⟩
              rw [h, List.get?_set_eq, hv]
              rfl
            · left
              rw [h]
              exact List.get?_set_ne _ vs (fun hh => hij hh.symm)
          · by_cases hij : j = i
            · subst hij
              right
              have hu : u = { v with targetBalance := some (roundToLamports (effTarget v + min (per - effTarget v) rem)) } := by
                rw [List.get?_set_eq, hv] at h1
                injection h1 with h1
                exact h1.symm
              refine ⟨List.mem_cons_self _ _, v, w, hv, h2, ?_⟩
              exact eqButTb_trans (eqButTb_withTb v _) (hu ▸ h3)
            · right
              refine ⟨List.mem_cons_of_mem _ hm, u, w, ?_, h2, h3⟩
              rw [← h1]
              exact (List.get?_set_ne _ vs (fun hh => hij hh.symm)).symm
        · rw [if_neg hd]
          rcases ih vs rem with h | ⟨hm, v', w, h1, h2, h3⟩
          · left; exact h
          · right; exact ⟨List.mem_cons_of_mem _ hm, v', w, h1, h2, h3⟩


theorem distribute_sum (per : ℚ) (idxs : List Nat) :
    ∀ (vs : List VRec) (rem : ℚ),
      |sumT (distribute per idxs vs rem).1 - sumT vs - (rem - (distribute per idxs vs rem).2)| ≤
        (idxs.length : ℚ) * (1 / 1000000000) := by
  induction idxs with
  | nil =>
    intro vs rem
    simp [distribute]
  | cons i is ih =>
    intro vs rem
    have hlen : ((i :: is).length : ℚ) = (is.length : ℚ) + 1 := by
      simp only [List.length_cons]
      push_cast
      ring
    have hnn : (0:ℚ) ≤ (is.length : ℚ) * (1 / 1000000000) := by positivity
    simp only [distribute]
    by_cases hrem : rem ≤ 0
    · rw [if_pos hrem]
      rw [hlen]
      simp only [sub_self, abs_zero]
      nlinarith
    · rw [if_neg hrem]
      cases hv : vs.get? i with
      | none =>
        rw [hlen]
        calc |sumT (distribute per is vs rem).1 - sumT vs - (rem - (distribute per is vs rem).2)|
            ≤ (is.length : ℚ) * (1 / 1000000000) := ih vs rem
          _ ≤ ((is.length : ℚ) + 1) * (1 / 1000000000) := by nlinarith
      | some v =>
        dsimp only
        by_cases hd : 0 < per - effTarget v
        · rw [if_pos hd]
          have hstep : sumT (vs.set i { v with targetBalance := some (roundToLamports (effTarget v + min (per - effTarget v) rem)) }) =
              sumT vs - effTarget v + roundToLamports (effTarget v + min (per - effTarget v) rem) := by
            rw [sumT_set vs i v _ hv, effTarget_withTb]
          have h1 := ih (vs.set i { v with targetBalance := some (roundToLamports (effTarget v + min (per - effTarget v) rem)) })
              (roundToLamports (rem - min (per - effTarget v) rem))
          have e1 := roundToLamports_err (effTarget v + min (per - effTarget v) rem)
          have e2 := roundToLamports_err (rem - min (per - effTarget v) rem)
          rw [hlen]
          set D := distribute per is
              (vs.set i { v with targetBalance := some (roundToLamports (effTarget v + min (per - effTarget v) rem)) })
              (roundToLamports (rem - min (per - effTarget v) rem)) with hD
          have hsplit : sumT D.1 - sumT vs - (rem - D.2) =
              (sumT D.1 - sumT (vs.set i { v with targetBalance := some (roundToLamports (effTarget v + min (per - effTarget v) rem)) })
                - (roundToLamports (rem - min (per - effTarget v) rem) - D.2))
              + ((roundToLamports (effTarget v + min (per - effTarget v) rem)
                  - (effTarget v + min (per - effTarget v) rem))
                + (roundToLamports (rem - min (per - effTarget v) rem)
                  - (rem - min (per - effTarget v) rem))) := by
            rw [hstep]
            ring
          rw [hsplit]
          calc |_ + _| ≤ _ + _ := abs_add _ _
            _ ≤ (is.length : ℚ) * (1 / 1000000000) +
                (|roundToLamports (effTarget v + min (per - effTarget v) rem)
                    - (effTarget v + min (per - effTarget v) rem)|
                  + |roundToLamports (rem - min (per - effTarget v) rem)
                    - (rem - min (per - effTarget v) rem)|) := by
                  exact add_le_add h1 (abs_add _ _)
            _ ≤ (is.length : ℚ) * (1 / 1000000000) + (1 / 2000000000 + 1 / 2000000000) := by
                  exact add_le_add le_rfl (add_le_add e1 e2)
            _ = ((is.length : ℚ) + 1) * (1 / 1000000000) := by ring
        · rw [if_neg hd]
          rw [hlen]
          calc |sumT (distribute per is vs rem).1 - sumT vs - (rem - (distribute per is vs rem).2)|
              ≤ (is.length : ℚ) * (1 / 1000000000) := ih vs rem
            _ ≤ ((is.length : ℚ) + 1) * (1 / 1000000000) := by nlinarith

theorem distribute_rem_nonneg (per : ℚ) (idxs : List Nat) :
    ∀ (vs : List VRec) (rem : ℚ), 0 ≤ rem → 0 ≤ (distribute per idxs vs rem).2 := by
  induction idxs with
  | nil => intro vs rem h; exact h
  | cons i is ih =>
    intro vs rem h
    simp only [distribute]
    by_cases hrem : rem ≤ 0
    · rw [if_pos hrem]; exact h
    · rw [if_neg hrem]
      cases hv : vs.get? i with
      | none => exact ih vs rem h
      | some v =>
        dsimp only
        by_cases hd : 0 < per - effTarget v
        · rw [if_pos hd]
          apply ih
          apply roundToLamports_nonneg
          have hmin : min (per - effTarget v) rem ≤ rem := min_le_right _ _
          linarith
        · rw [if_neg hd]; exact ih vs rem h

theorem lamList_set (vs : List VRec) (i : Nat) (v : VRec) (t : ℚ)
    (h : LamList vs) (ht : Lam t) :
    LamList (vs.set i { v with targetBalance := some t }) := by
  intro w hw
  rcases List.mem_or_eq_of_mem_set hw with h1 | h1
  · exact h w h1
  · subst h1; exact ht

theorem distribute_lamList (per : ℚ) (idxs : List Nat) :
    ∀ (vs : List VRec) (rem : ℚ), LamList vs → LamList (distribute per idxs vs rem).1 := by
  induction idxs with
  | nil => intro vs rem h; exact h
  | cons i is ih =>
    intro vs rem h
    simp only [distribute]
    by_cases hrem : rem ≤ 0
    · rw [if_pos hrem]; exact h
    · rw [if_neg hrem]
      cases hv : vs.get? i with
      | none => exact ih vs rem h
      | some v =>
        dsimp only
        by_cases hd : 0 < per - effTarget v
        · rw [if_pos hd]
          exact ih _ _ (lamList_set vs i v _ h (lam_roundToLamports _))
        · rw [if_neg hd]; exact ih vs rem h

theorem distribute_mono (per : ℚ) (idxs : List Nat) :
    ∀ (vs : List VRec) (rem : ℚ), LamList vs →
      ∀ j v v', vs.get? j = some v →
        (distribute per idxs vs rem).1.get? j = some v' →
        effTarget v ≤ effTarget v' := by
  induction idxs with
  | nil =>
    intro vs rem _ j v v' h1 h2
    simp only [distribute] at h2
    rw [h1] at h2
    injection h2 with h2
    exact le_of_eq (congrArg effTarget h2)
  | cons i is ih =>
    intro vs rem hlam j v v' h1 h2
    simp only [distribute] at h2
    by_cases hrem : rem ≤ 0
    · rw [if_pos hrem] at h2
      rw [h1] at h2
      injection h2 with h2
      exact le_of_eq (congrArg effTarget h2)
    · rw [if_neg hrem] at h2
      cases hv : vs.get? i with
      | none =>
        rw [hv] at h2
        exact ih vs rem hlam j v v' h1 h2
      | some w =>
        rw [hv] at h2
        dsimp only at h2
        by_cases hd : 0 < per - effTarget w
        · rw [if_pos hd] at h2
          have hlam' : LamList (vs.set i { w with targetBalance := some (roundToLamports (effTarget w + min (per - effTarget w) rem)) }) :=
            lamList_set vs i w _ hlam (lam_roundToLamports _)
          by_cases hij : j = i
          · subst hij
            have hwv : w = v := by
              rw [h1] at hv
              injection hv with hh
              exact hh.symm
            subst hwv
            have hmid : (vs.set j { w with targetBalance := some (roundToLamports (effTarget w + min (per - effTarget w) rem)) }).get? j =
                some { w with targetBalance := some (roundToLamports (effTarget w + min (per - effTarget w) rem)) } := by
              rw [List.get?_set_eq, h1]
              rfl
            have htail := ih _ _ hlam' j _ v' hmid h2
            rw [effTarget_withTb] at htail
            have hstep : effTarget w ≤
                roundToLamports (effTarget w + min (per - effTarget w) rem) := by
              apply lam_le_roundToLamports (hlam w (List.get?_mem h1))
              have hr : 0 < rem := lt_of_not_le hrem
              exact le_min hd.le hr.le
            exact hstep.trans htail
          · have hmid : (vs.set i { w with targetBalance := some (roundToLamports (effTarget w + min (per - effTarget w) rem)) }).get? j =
                some v := by
              rw [List.get?_set_ne _ vs (fun hh => hij hh.symm)]
              exact h1
            exact ih _ _ hlam' j v v' hmid h2
        · rw [if_neg hd] at h2
          exact ih vs rem hlam j v v' h1 h2


theorem residue_length (per : ℚ) (idxs : List Nat) :
    ∀ vs : List VRec, (residue per idxs vs).length = vs.length := by
  induction idxs with
  | nil => intro vs; rfl
  | cons i is ih =>
    intro vs
    simp only [residue]
    cases hv : vs.get? i with
    | none => exact ih vs
    | some v =>
      dsimp only
      rw [ih, List.length_set]

theorem residue_pointwise (per : ℚ) (idxs : List Nat) :
    ∀ (vs : List VRec) (j : Nat),
      (residue per idxs vs).get? j = vs.get? j ∨
        (j ∈ idxs ∧ ∃ v w, vs.get? j = some v ∧
          (residue per idxs vs).get? j = some w ∧ EqButTb v w) := by
  induction idxs with
  | nil => intro vs j; left; rfl
  | cons i is ih =>
    intro vs j
    simp only [residue]
    cases hv : vs.get? i with
    | none =>
      rcases ih vs j with h | ⟨hm, v, w, h1, h2, h3⟩
      · left; exact h
      · right; exact ⟨List.mem_cons_of_mem _ hm, v, w, h1, h2, h3⟩
    | some v =>
      dsimp only
      rcases ih (vs.set i { v with targetBalance := some (roundToLamports (effTarget v + per)) }) j with h | ⟨hm, u, w, h1, h2, h3⟩
      · by_cases hij : j = i
        · subst hij
          right
          refine ⟨List.mem_cons_self _ _, v, { v with targetBalance := some (roundToLamports (effTarget v + per)) }, hv, ?_, eqButTb_withTb v _⟩
          rw [h, List.get?_set_eq, hv]
          rfl
        · left
          rw [h]
          exact List.get?_set_ne _ vs (fun hh => hij hh.symm)
      · by_cases hij : j = i
        · subst hij
          right
          have hu : u = { v with targetBalance := some (roundToLamports (effTarget v + per)) } := by
            rw [List.get?_set_eq, hv] at h1
            injection h1 with hh
            exact hh.symm
          refine ⟨List.mem_cons_self _ _, v, w, hv, h2, ?_⟩
          exact eqButTb_trans (eqButTb_withTb v _) (hu ▸ h3)
        · right
          refine ⟨List.mem_cons_of_mem _ hm, u, w, ?_, h2, h3⟩
          rw [← h1]
          exact (List.get?_set_ne _ vs (fun hh => hij hh.symm)).symm

theorem residue_sum (per : ℚ) (idxs : List Nat) :
    ∀ vs : List VRec, (∀ i ∈ idxs, i < vs.length) →
      |sumT (residue per idxs vs) - sumT vs - (idxs.length : ℚ) * per| ≤
        (idxs.length : ℚ) * (1 / 2000000000) := by
  induction idxs with
  | nil =>
    intro vs _
    simp [residue]
  | cons i is ih =>
    intro vs hval
    have hlen : ((i :: is).length : ℚ) = (is.length : ℚ) + 1 := by
      simp only [List.length_cons]
      push_cast
      ring
    simp only [residue]
    cases hv : vs.get? i with
    | none =>
      exfalso
      have := List.get?_eq_none.mp hv
      exact absurd (hval i (List.mem_cons_self _ _)) (not_lt.mpr this)
    | some v =>
      dsimp only
      have hstep : sumT (vs.set i { v with targetBalance := some (roundToLamports (effTarget v + per)) }) =
          sumT vs - effTarget v + roundToLamports (effTarget v + per) := by
        rw [sumT_set vs i v _ hv, effTarget_withTb]
      have hval' : ∀ i' ∈ is, i' < (vs.set i { v with targetBalance := some (roundToLamports (effTarget v + per)) }).length := by
        intro i' hi'
        rw [List.length_set]
        exact hval i' (List.mem_cons_of_mem _ hi')
      have h1 := ih (vs.set i { v with targetBalance := some (roundToLamports (effTarget v + per)) }) hval'
      have e1 := roundToLamports_err (effTarget v + per)
      rw [hlen]
      set R := residue per is (vs.set i { v with targetBalance := some (roundToLamports (effTarget v + per)) }) with hR
      have hsplit : sumT R - sumT vs - ((is.length : ℚ) + 1) * per =
          (sumT R - sumT (vs.set i { v with targetBalance := some (roundToLamports (effTarget v + per)) }) - (is.length : ℚ) * per)
            + (roundToLamports (effTarget v + per) - (effTarget v + per)) := by
        rw [hstep]
        ring
      rw [hsplit]
      calc |_ + _| ≤ _ + _ := abs_add _ _
        _ ≤ (is.length : ℚ) * (1 / 2000000000) + 1 / 2000000000 := add_le_add h1 e1
        _ = ((is.length : ℚ) + 1) * (1 / 2000000000) := by ring

theorem residue_lamList (per : ℚ) (idxs : List Nat) :
    ∀ vs : List VRec, LamList vs → LamList (residue per idxs vs) := by
  induction idxs with
  | nil => intro vs h; exact h
  | cons i is ih =>
    intro vs h
    simp only [residue]
    cases hv : vs.get? i with
    | none => exact ih vs h
    | some v =>
      dsimp only
      exact ih _ (lamList_set vs i v _ h (lam_roundToLamports _))

theorem residue_mono (per : ℚ) (hper : 0 ≤ per) (idxs : List Nat) :
    ∀ vs : List VRec, LamList vs →
      ∀ j v v', vs.get? j = some v → (residue per idxs vs).get? j = some v' →
        effTarget v ≤ effTarget v' := by
  induction idxs with
  | nil =>
    intro vs _ j v v' h1 h2
    simp only [residue] at h2
    rw [h1] at h2
    injection h2 with h2
    exact le_of_eq (congrArg effTarget h2)
  | cons i is ih =>
    intro vs hlam j v v' h1 h2
    simp only [residue] at h2
    cases hv : vs.get? i with
    | none =>
      rw [hv] at h2
      exact ih vs hlam j v v' h1 h2
    | some w =>
      rw [hv] at h2
      dsimp only at h2
      have hlam' : LamList (vs.set i { w with targetBalance := some (roundToLamports (effTarget w + per)) }) :=
        lamList_set vs i w _ hlam (lam_roundToLamports _)
      by_cases hij : j = i
      · subst hij
        have hwv : w = v := by
          rw [h1] at hv
          injection hv with hh
          exact hh.symm
        subst hwv
        have hmid : (vs.set j { w with targetBalance := some (roundToLamports (effTarget w + per)) }).get? j =
            some { w with targetBalance := some (roundToLamports (effTarget w + per)) } := by
          rw [List.get?_set_eq, h1]
          rfl
        have htail := ih _ hlam' j _ v' hmid h2
        rw [effTarget_withTb] at htail
        have hstep : effTarget w ≤ roundToLamports (effTarget w + per) :=
          lam_le_roundToLamports (hlam w (List.get?_mem h1)) hper
        exact hstep.trans htail
      · have hmid : (vs.set i { w with targetBalance := some (roundToLamports (effTarget w + per)) }).get? j = some v := by
          rw [List.get?_set_ne _ vs (fun hh => hij hh.symm)]
          exact h1
        exact ih _ hlam' j v v' hmid h2


/-! ### Index and order facts -/

theorem isRemoved_iff (v : VRec) : isRemoved v = true ↔ v.action = some VAction.remove := by
  unfold isRemoved
  exact beq_iff_eq

theorem isRemoved_false_iff (v : VRec) :
    isRemoved v = false ↔ v.action ≠ some VAction.remove := by
  constructor
  · intro h hc
    rw [← isRemoved_iff v] at hc
    rw [h] at hc
    exact Bool.false_ne_true hc
  · intro h
    cases hb : isRemoved v
    · rfl
    · exact absurd ((isRemoved_iff v).mp hb) h

theorem activeAt_comp (v : VRec) (l : List VRec) :
    activeAt (v :: l) ∘ Nat.succ = activeAt l := rfl

theorem length_activeIndices (vs : List VRec) :
    (activeIndices vs).length = (activeFilter vs).length := by
  induction vs with
  | nil => rfl
  | cons v l ih =>
    unfold activeIndices activeFilter at ih ⊢
    rw [List.length_cons, List.range_succ_eq_map, List.filter_cons, List.filter_map, activeAt_comp]
    have h0 : activeAt (v :: l) 0 = !(isRemoved v) := rfl
    rw [h0]
    by_cases h : isRemoved v
    · rw [h]
      rw [if_neg (by simp), List.length_map, List.filter_cons, if_neg (by simp [h])]
      exact ih
    · have hb : isRemoved v = false := by simpa using h
      rw [hb]
      rw [if_pos (by simp), List.filter_cons, if_pos (by simp [hb]), List.length_cons,
        List.length_cons, List.length_map]
      rw [ih]

theorem mem_activeIndices (vs : List VRec) (j : Nat) :
    j ∈ activeIndices vs ↔ ∃ v, vs.get? j = some v ∧ isRemoved v = false := by
  unfold activeIndices
  rw [List.mem_filter, List.mem_range]
  constructor
  · rintro ⟨hlt, hp⟩
    unfold activeAt at hp
    cases hv : vs.get? j with
    | none =>
      rw [hv] at hp
      simp at hp
    | some v =>
      rw [hv] at hp
      refine ⟨v, rfl, ?_⟩
      simpa using hp
  · rintro ⟨v, hv, hr⟩
    obtain ⟨hlt, -⟩ := List.get?_eq_some.mp hv
    refine ⟨hlt, ?_⟩
    unfold activeAt
    rw [hv]
    simpa using hr

theorem mem_rebalanceOrder (vs : List VRec) (j : Nat) :
    j ∈ rebalanceOrder vs ↔ ∃ v, vs.get? j = some v ∧ isRemoved v = false := by
  unfold rebalanceOrder
  rw [List.mem_insertionSort]
  exact mem_activeIndices vs j

theorem length_rebalanceOrder (vs : List VRec) :
    (rebalanceOrder vs).length = (activeFilter vs).length :=
  (List.perm_insertionSort _ _).length_eq.trans (length_activeIndices vs)

/-! ### Composition of the two rebalance passes -/

theorem rebalanced_length (s : EditState) :
    (rebalancedValidators s).length = s.validators.length := by
  unfold rebalancedValidators
  by_cases h : 0 < (distributed s).2
  · rw [if_pos h, residue_length]
    exact distribute_length _ _ _ _
  · rw [if_neg h]
    exact distribute_length _ _ _ _

theorem rebalanced_pointwise (s : EditState) (j : Nat) :
    (rebalancedValidators s).get? j = s.validators.get? j ∨
      (j ∈ rebalanceOrder s.validators ∧ ∃ v w, s.validators.get? j = some v ∧
        (rebalancedValidators s).get? j = some w ∧ EqButTb v w) := by
  have hd : (distributed s).1.get? j = s.validators.get? j ∨
      (j ∈ rebalanceOrder s.validators ∧ ∃ v w, s.validators.get? j = some v ∧
        (distributed s).1.get? j = some w ∧ EqButTb v w) :=
    distribute_pointwise _ _ _ _ j
  unfold rebalancedValidators
  by_cases h : 0 < (distributed s).2
  · rw [if_pos h]
    rcases residue_pointwise ((distributed s).2 / ((rebalanceOrder s.validators).length : ℚ))
        (rebalanceOrder s.validators) (distributed s).1 j with hr | ⟨hm, u, w, hr1, hr2, hr3⟩
    · rw [hr]
      exact hd
    · rcases hd with hd | ⟨hm2, v, u2, hd1, hd2, hd3⟩
      · right
        refine ⟨hm, u, w, ?_, hr2, hr3⟩
        rw [← hd]
        exact hr1
      · right
        have hu : u2 = u := by
          rw [hd2] at hr1
          injection hr1
        subst hu
        exact ⟨hm, v, w, hd1, hr2, eqButTb_trans hd3 hr3⟩
  · rw [if_neg h]
    exact hd

theorem autoRebalance_validators_pointwise (s : EditState) (j : Nat) :
    (autoRebalance s).validators.get? j = s.validators.get? j ∨
      (j ∈ rebalanceOrder s.validators ∧ ∃ v w, s.validators.get? j = some v ∧
        (autoRebalance s).validators.get? j = some w ∧ EqButTb v w) := by
  unfold autoRebalance
  by_cases h0 : removedStakeOf s = 0
  · rw [if_pos h0]
    left
    rfl
  · rw [if_neg h0]
    by_cases h1 : (rebalanceOrder s.validators).isEmpty
    · rw [if_pos h1]
      left
      rfl
    · rw [if_neg h1]
      exact rebalanced_pointwise s j

theorem autoRebalance_validators_length (s : EditState) :
    (autoRebalance s).validators.length = s.validators.length := by
  unfold autoRebalance
  by_cases h0 : removedStakeOf s = 0
  · rw [if_pos h0]
  · rw [if_neg h0]
    by_cases h1 : (rebalanceOrder s.validators).isEmpty
    · rw [if_pos h1]
    · rw [if_neg h1]
      exact rebalanced_length s


/-! ### Stake-sum accounting for the full rebalance body -/

theorem removedStakeOf_nonneg (s : EditState)
    (h : ∀ v ∈ s.validators, 0 ≤ v.activeBalance) : 0 ≤ removedStakeOf s := by
  unfold removedStakeOf
  apply List.sum_nonneg
  intro x hx
  rcases List.mem_map.mp hx with ⟨v, hv, rfl⟩
  exact h v (List.mem_filter.mp hv).1

theorem rebalanced_sum (s : EditState) (hnn : 0 ≤ removedStakeOf s)
    (hne : rebalanceOrder s.validators ≠ []) :
    |sumT (rebalancedValidators s) - sumT s.validators - removedStakeOf s| ≤
      ((rebalanceOrder s.validators).length : ℚ) * (3 / 2000000000) := by
  have hd : |sumT (distributed s).1 - sumT s.validators -
      (removedStakeOf s - (distributed s).2)| ≤
      ((rebalanceOrder s.validators).length : ℚ) * (1 / 1000000000) :=
    distribute_sum _ _ _ _
  have hd0 : 0 ≤ (distributed s).2 := distribute_rem_nonneg _ _ _ _ hnn
  have hlen0 : (0:ℚ) < ((rebalanceOrder s.validators).length : ℚ) := by
    have h := List.length_pos.mpr hne
    exact_mod_cast h
  unfold rebalancedValidators
  by_cases h : 0 < (distributed s).2
  · rw [if_pos h]
    have hval : ∀ i ∈ rebalanceOrder s.validators, i < (distributed s).1.length := by
      intro i hi
      rcases (mem_rebalanceOrder _ _).mp hi with ⟨v, hv, -⟩
      obtain ⟨hlt, -⟩ := List.get?_eq_some.mp hv
      have hlen : (distributed s).1.length = s.validators.length := distribute_length _ _ _ _
      rw [hlen]
      exact hlt
    have hr := residue_sum ((distributed s).2 / ((rebalanceOrder s.validators).length : ℚ))
        (rebalanceOrder s.validators) (distributed s).1 hval
    have hcancel : ((rebalanceOrder s.validators).length : ℚ) *
        ((distributed s).2 / ((rebalanceOrder s.validators).length : ℚ)) = (distributed s).2 := by
      field_simp
    rw [hcancel] at hr
    have hsplit : sumT (residue ((distributed s).2 / ((rebalanceOrder s.validators).length : ℚ))
          (rebalanceOrder s.validators) (distributed s).1) - sumT s.validators - removedStakeOf s =
        (sumT (distributed s).1 - sumT s.validators - (removedStakeOf s - (distributed s).2))
          + (sumT (residue ((distributed s).2 / ((rebalanceOrder s.validators).length : ℚ))
              (rebalanceOrder s.validators) (distributed s).1) - sumT (distributed s).1 -
            (distributed s).2) := by
      ring
    rw [hsplit]
    exact (abs_add _ _).trans ((add_le_add hd hr).trans (le_of_eq (by ring)))
  · rw [if_neg h]
    have hz : (distributed s).2 = 0 := le_antisymm (not_lt.mp h) hd0
    rw [hz, sub_zero] at hd
    refine hd.trans ?_
    nlinarith [hlen0.le]

theorem eqButTb_action {v w : VRec} (h : EqButTb v w) : w.action = v.action :=
  h.2.2.2.2.2.2.2.2

theorem rebalanced_actShape (s : EditState) :
    List.Forall₂ ActShape s.validators (rebalancedValidators s) := by
  rw [List.forall₂_iff_get]
  refine ⟨(rebalanced_length s).symm, ?_⟩
  intro i h1 h2
  have hg1 : s.validators.get? i = some (s.validators.get ⟨i, h1⟩) := List.get?_eq_get h1
  have hg2 : (rebalancedValidators s).get? i =
      some ((rebalancedValidators s).get ⟨i, h2⟩) := List.get?_eq_get h2
  rcases rebalanced_pointwise s i with h | ⟨hm, v, w, hv, hw, hsh⟩
  · rw [hg1, hg2] at h
    injection h with h
    rw [h]
    exact ⟨rfl, fun _ => rfl⟩
  · have hv2 : s.validators.get ⟨i, h1⟩ = v := by
      rw [hg1] at hv
      injection hv
    have hw2 : (rebalancedValidators s).get ⟨i, h2⟩ = w := by
      rw [hg2] at hw
      injection hw
    rw [hv2, hw2]
    refine ⟨eqButTb_action hsh, ?_⟩
    intro hrem
    exfalso
    rcases (mem_rebalanceOrder _ _).mp hm with ⟨v0, hv0, hr0⟩
    rw [hv] at hv0
    injection hv0 with hv0
    rw [← hv0] at hr0
    exact (isRemoved_false_iff v).mp hr0 hrem

theorem forall₂_actShape_sums {l l2 : List VRec} (h : List.Forall₂ ActShape l l2) :
    sumTRemoved l2 = sumTRemoved l ∧ (activeFilter l2).length = (activeFilter l).length := by
  induction h with
  | nil => exact ⟨rfl, rfl⟩
  | cons hab htail ih =>
    rename_i a b l1 l3
    obtain ⟨hact, hremfix⟩ := hab
    obtain ⟨ihs, ihl⟩ := ih
    unfold sumTRemoved activeFilter at *
    have hriff : isRemoved b = isRemoved a := by
      unfold isRemoved
      rw [hact]
    by_cases hr : isRemoved a
    · have hba : b = a := hremfix ((isRemoved_iff a).mp hr)
      subst hba
      rw [List.filter_cons, List.filter_cons, if_pos (by rw [hriff]; exact hr), if_pos hr]
      rw [List.filter_cons, List.filter_cons, if_neg (by simp [hriff, hr]), if_neg (by simp [hr])]
      constructor
      · rw [sumT_cons, sumT_cons, ihs]
      · exact ihl
    · have hra : isRemoved a = false := by simpa using hr
      rw [List.filter_cons, List.filter_cons, if_neg (by simp [hriff, hra]), if_neg (by simp [hra])]
      rw [List.filter_cons, List.filter_cons, if_pos (by simp [hriff, hra]), if_pos (by simp [hra])]
      exact ⟨ihs, by rw [List.length_cons, List.length_cons, ihl]⟩

theorem rebalanced_sumActive (s : EditState) :
    sumTActive (rebalancedValidators s) - sumTActive s.validators =
      sumT (rebalancedValidators s) - sumT s.validators := by
  have h := forall₂_actShape_sums (rebalanced_actShape s)
  have h1 := sumT_split (rebalancedValidators s)
  have h2 := sumT_split s.validators
  rw [h1, h2, h.1]
  ring

theorem rebalanced_activeCount (s : EditState) :
    (activeFilter (rebalancedValidators s)).length = (activeFilter s.validators).length :=
  (forall₂_actShape_sums (rebalanced_actShape s)).2


/-! ### Branch structure of autoRebalance -/

theorem autoRebalance_cases (s : EditState) :
    autoRebalance s = s ∨ autoRebalance s = { s with validators := rebalancedValidators s } := by
  unfold autoRebalance
  by_cases h0 : removedStakeOf s = 0
  · rw [if_pos h0]
    left
    rfl
  · rw [if_neg h0]
    by_cases h1 : (rebalanceOrder s.validators).isEmpty
    · rw [if_pos h1]
      left
      rfl
    · rw [if_neg h1]
      right
      rfl

theorem rebalanced_mono (s : EditState) (hlam : LamList s.validators) :
    ∀ j v v2, s.validators.get? j = some v →
      (rebalancedValidators s).get? j = some v2 → effTarget v ≤ effTarget v2 := by
  intro j v v2 h1 h2
  unfold rebalancedValidators at h2
  by_cases h : 0 < (distributed s).2
  · rw [if_pos h] at h2
    obtain ⟨hlt, -⟩ := List.get?_eq_some.mp h1
    have hlen : (distributed s).1.length = s.validators.length := distribute_length _ _ _ _
    have hj : j < (distributed s).1.length := by rw [hlen]; exact hlt
    have hu := List.get?_eq_get hj
    have step1 : effTarget v ≤ effTarget ((distributed s).1.get ⟨j, hj⟩) :=
      distribute_mono (targetPer s) (rebalanceOrder s.validators) s.validators
        (removedStakeOf s) hlam j v _ h1 hu
    have hlam2 : LamList (distributed s).1 :=
      distribute_lamList (targetPer s) (rebalanceOrder s.validators) s.validators
        (removedStakeOf s) hlam
    have hper : (0:ℚ) ≤ (distributed s).2 / ((rebalanceOrder s.validators).length : ℚ) :=
      div_nonneg h.le (by positivity)
    have step2 : effTarget ((distributed s).1.get ⟨j, hj⟩) ≤ effTarget v2 :=
      residue_mono _ hper (rebalanceOrder s.validators) (distributed s).1 hlam2 j _ v2 hu h2
    exact step1.trans step2
  · rw [if_neg h] at h2
    exact distribute_mono (targetPer s) (rebalanceOrder s.validators) s.validators
      (removedStakeOf s) hlam j v v2 h1 h2

theorem wRemState_lam : ∀ v ∈ wRemState.validators, Lam (effTarget v) := by
  intro v hv
  simp only [wRemState, List.mem_cons, List.not_mem_nil, or_false] at hv
  rcases hv with rfl | rfl
  · exact ⟨0, by norm_num [effTarget, mkV]⟩
  · exact ⟨500000000000, by norm_num [effTarget, mkV]⟩

/-! ### Claim theorems about the rebalance algorithm -/

/-- C1 (amended): conservation with tolerance `1.5·n` lamports.  For every
state with nonnegative current balances and at least one active (non-removed)
existing validator, the active targets after `autoRebalance` sum to the active
targets before plus the freed removed stake, within `n * (3/2) * 1e-9`, where
`n` is the number of active existing validators.  (The one-lamport tolerance
of the original claim fails: each transfer rounds both the target and the
remaining pool, and the residue pass rounds once more per validator.) -/
theorem rebalance_conservation_bound (s : EditState)
    (hbal : ∀ v ∈ s.validators, 0 ≤ v.activeBalance)
    (hact : (activeFilter s.validators).length ≠ 0) :
    |sumTActive (autoRebalance s).validators - sumTActive s.validators - removedStakeOf s| ≤
      ((activeFilter s.validators).length : ℚ) * (3 / 2000000000) := by
  have hnn := removedStakeOf_nonneg s hbal
  unfold autoRebalance
  by_cases h0 : removedStakeOf s = 0
  · rw [if_pos h0, h0]
    have hz : sumTActive s.validators - sumTActive s.validators - 0 = 0 := by ring
    rw [hz, abs_zero]
    positivity
  · rw [if_neg h0]
    have hneOrd : (rebalanceOrder s.validators).isEmpty = false := by
      cases hb : (rebalanceOrder s.validators).isEmpty
      · rfl
      · exfalso
        apply hact
        rw [← length_rebalanceOrder, List.length_eq_zero]
        exact List.isEmpty_iff.mp hb
    have hcond : ¬ ((rebalanceOrder s.validators).isEmpty = true) := by
      rw [hneOrd]
      exact Bool.false_ne_true
    rw [if_neg hcond]
    show |sumTActive (rebalancedValidators s) - sumTActive s.validators - removedStakeOf s| ≤ _
    have hne : rebalanceOrder s.validators ≠ [] := by
      intro hc
      rw [hc] at hneOrd
      exact absurd hneOrd (by simp)
    have hsum := rebalanced_sum s hnn hne
    rw [length_rebalanceOrder] at hsum
    have heq := rebalanced_sumActive s
    have hrw : sumTActive (rebalancedValidators s) - sumTActive s.validators - removedStakeOf s =
        sumT (rebalancedValidators s) - sumT s.validators - removedStakeOf s := by
      linarith
    rw [hrw]
    exact hsum

/-- C1 counterexample: with active targets `[0, 0]` and a removed validator
freeing three lamports, `autoRebalance` produces six lamports of active
target out of three freed, missing conservation by two lamports — beyond the
claimed `1e-9` tolerance — at a state with an active validator and a removed
validator of positive current balance. -/
theorem rebalance_conservation_cex :
    (activeFilter cexConservation.validators).length = 2 ∧
    cexConservation.validators.get? 2 =
      some (mkV "c" (3 / 1000000000) (some 0) (some VAction.remove)) ∧
    (0:ℚ) < 3 / 1000000000 ∧
    ¬ (|sumTActive (autoRebalance cexConservation).validators -
        sumTActive cexConservation.validators - removedStakeOf cexConservation| ≤
        1 / 1000000000) := by
  refine ⟨?_, rfl, by norm_num, ?_⟩
  · norm_num +decide [activeFilter, cexConservation, mkV, isRemoved]
  · norm_num +decide [autoRebalance, rebalancedValidators, distributed, distribute, residue,
      targetPer, rebalanceOrder, activeIndices, activeAt, cexConservation, mkV, isRemoved,
      removedStakeOf, List.insertionSort, List.orderedInsert, idxLe, keyAt, effTarget,
      roundToLamports, round_eq, List.range_succ, sumTActive, sumT, activeFilter, abs_le]

/-- C1 witness: at the concrete state with `A` removed (1000) and `B` active
(500), the amended bound holds with both hypotheses discharged. -/
theorem rebalance_conservation_bound_witness :
    (∀ v ∈ wRemState.validators, 0 ≤ v.activeBalance) ∧
    (activeFilter wRemState.validators).length ≠ 0 ∧
    |sumTActive (autoRebalance wRemState).validators - sumTActive wRemState.validators -
        removedStakeOf wRemState| ≤
      ((activeFilter wRemState.validators).length : ℚ) * (3 / 2000000000) := by
  have hb : ∀ v ∈ wRemState.validators, 0 ≤ v.activeBalance := by
    intro v hv
    simp only [wRemState, List.mem_cons, List.not_mem_nil, or_false] at hv
    rcases hv with rfl | rfl
    · norm_num [mkV]
    · norm_num [mkV]
  have ha : (activeFilter wRemState.validators).length ≠ 0 := by
    norm_num +decide [activeFilter, wRemState, mkV, isRemoved]
  exact ⟨hb, ha, rebalance_conservation_bound wRemState hb ha⟩

/-- C8: the fill order of `autoRebalance` is the active positions sorted by
ascending effective target with ties broken by original position (the stable
sort of the source), and on the spec scenario `[0, 100, 100]` with 60 freed,
the lowest validator receives the whole 60 while the others receive nothing. -/
theorem rebalance_fill_order :
    (∀ vs : List VRec, List.Sorted (idxLe vs) (rebalanceOrder vs) ∧
      (rebalanceOrder vs).Perm (activeIndices vs)) ∧
    cexFill.validators.map effTarget = [0, 100, 100, 0] ∧
    removedStakeOf cexFill = 60 ∧
    (autoRebalance cexFill).validators.map effTarget = [60, 100, 100, 0] ∧
    keyAt (autoRebalance cexFill).validators 1 - keyAt cexFill.validators 1 ≤
      keyAt (autoRebalance cexFill).validators 0 - keyAt cexFill.validators 0 ∧
    keyAt (autoRebalance cexFill).validators 2 - keyAt cexFill.validators 2 ≤
      keyAt (autoRebalance cexFill).validators 0 - keyAt cexFill.validators 0 := by
  refine ⟨fun vs => ⟨?_, ?_⟩, ?_, ?_, ?_, ?_, ?_⟩
  · unfold rebalanceOrder
    exact List.sorted_insertionSort _ _
  · unfold rebalanceOrder
    exact List.perm_insertionSort _ _
  · norm_num +decide [cexFill, mkV, effTarget]
  · norm_num +decide [removedStakeOf, cexFill, mkV, isRemoved]
  · norm_num +decide [autoRebalance, rebalancedValidators, distributed, distribute, residue,
      targetPer, rebalanceOrder, activeIndices, activeAt, cexFill, mkV, isRemoved,
      removedStakeOf, List.insertionSort, List.orderedInsert, idxLe, keyAt, effTarget,
      roundToLamports, round_eq, List.range_succ]
  · norm_num +decide [autoRebalance, rebalancedValidators, distributed, distribute, residue,
      targetPer, rebalanceOrder, activeIndices, activeAt, cexFill, mkV, isRemoved,
      removedStakeOf, List.insertionSort, List.orderedInsert, idxLe, keyAt, effTarget,
      roundToLamports, round_eq, List.range_succ]
  · norm_num +decide [autoRebalance, rebalancedValidators, distributed, distribute, residue,
      targetPer, rebalanceOrder, activeIndices, activeAt, cexFill, mkV, isRemoved,
      removedStakeOf, List.insertionSort, List.orderedInsert, idxLe, keyAt, effTarget,
      roundToLamports, round_eq, List.range_succ]

/-- C9 (amended): `autoRebalance` returns the state unchanged when the summed
current balance of the removed validators is zero — in particular when no
validator is marked remove — or when no active validator exists.  (The code
tests `removedStake === 0`, not "nothing is marked remove", so a removed
validator with zero balance also takes the no-op branch.) -/
theorem rebalance_noop (s : EditState)
    (h : removedStakeOf s = 0 ∨ activeFilter s.validators = []) :
    autoRebalance s = s := by
  unfold autoRebalance
  rcases h with h | h
  · rw [if_pos h]
  · by_cases h0 : removedStakeOf s = 0
    · rw [if_pos h0]
    · rw [if_neg h0]
      have hord : (rebalanceOrder s.validators).isEmpty = true := by
        rw [List.isEmpty_iff, ← List.length_eq_zero, length_rebalanceOrder, h]
        rfl
      rw [if_pos hord]

/-- C9 counterexample: a state with a validator marked `remove` (current
balance zero) and an active validator: the claim requires rebalance to
proceed, but the code leaves the state unchanged because the freed stake is
zero. -/
theorem rebalance_noop_cex :
    autoRebalance cexNoop = cexNoop ∧
    ¬ ((∀ v ∈ cexNoop.validators, v.action ≠ some VAction.remove) ∨
        activeFilter cexNoop.validators = []) := by
  constructor
  · norm_num +decide [autoRebalance, removedStakeOf, cexNoop, mkV, isRemoved]
  · intro hc
    rcases hc with hc | hc
    · exact hc (mkV "a" 0 (some 0) (some VAction.remove)) (by simp [cexNoop]) rfl
    · rw [show activeFilter cexNoop.validators =
          [mkV "b" 5 (some 5) (some VAction.keep)] from by decide] at hc
      exact absurd hc (by simp)

/-- C9 witness: at a state with no removals the no-op guarantee applies. -/
theorem rebalance_noop_witness :
    (removedStakeOf wState = 0 ∨ activeFilter wState.validators = []) ∧
    autoRebalance wState = wState := by
  have h : removedStakeOf wState = 0 := by
    norm_num +decide [removedStakeOf, wState, mkV, isRemoved]
  exact ⟨Or.inl h, rebalance_noop wState (Or.inl h)⟩

/-- C10 (corrected): `autoRebalance` is frame-preserving unconditionally — it
never touches `newValidators`, the reserve, any `action`, any current
balance, or anything at all of a validator marked `remove` — and it is
per-validator monotone on states whose effective targets are integer
multiples of `1e-9`.  (Unconditional monotonicity fails: rounding a transfer
landing between lamports can pull a misaligned target down.) -/
theorem rebalance_frame_mono (s : EditState) :
    (autoRebalance s).newValidators = s.newValidators ∧
    (autoRebalance s).reserveBalance = s.reserveBalance ∧
    (autoRebalance s).reserveAccount = s.reserveAccount ∧
    (autoRebalance s).validators.length = s.validators.length ∧
    (∀ j v v2, s.validators.get? j = some v →
      (autoRebalance s).validators.get? j = some v2 →
      v2.action = v.action ∧ v2.activeBalance = v.activeBalance ∧
        v2.voteAccount = v.voteAccount ∧ (v.action = some VAction.remove → v2 = v)) ∧
    ((∀ v ∈ s.validators, Lam (effTarget v)) →
      ∀ j v v2, s.validators.get? j = some v →
        (autoRebalance s).validators.get? j = some v2 → effTarget v ≤ effTarget v2) := by
  refine ⟨?_, ?_, ?_, autoRebalance_validators_length s, ?_, ?_⟩
  · rcases autoRebalance_cases s with h | h <;> rw [h]
  · rcases autoRebalance_cases s with h | h <;> rw [h]
  · rcases autoRebalance_cases s with h | h <;> rw [h]
  · intro j v v2 h1 h2
    rcases autoRebalance_validators_pointwise s j with h | ⟨hm, v0, w, hv0, hw, hsh⟩
    · rw [h1] at h
      rw [h2] at h
      injection h with h
      subst h
      exact ⟨rfl, rfl, rfl, fun _ => rfl⟩
    · have hvv : v0 = v := by
        rw [h1] at hv0
        injection hv0 with hh
        exact hh.symm
      subst hvv
      have hww : w = v2 := by
        rw [h2] at hw
        injection hw with hh
        exact hh.symm
      subst hww
      obtain ⟨e1, e2, e3, e4, e5, e6, e7, e8, e9⟩ := hsh
      refine ⟨e9, e4, e1, ?_⟩
      intro hrem
      exfalso
      rcases (mem_rebalanceOrder _ _).mp hm with ⟨vv, hvv2, hr⟩
      rw [h1] at hvv2
      injection hvv2 with hvv2
      rw [← hvv2] at hr
      exact (isRemoved_false_iff v0).mp hr hrem
  · intro hlam j v v2 h1 h2
    unfold autoRebalance at h2
    by_cases h0 : removedStakeOf s = 0
    · rw [if_pos h0] at h2
      rw [h1] at h2
      injection h2 with h2
      exact le_of_eq (congrArg effTarget h2)
    · rw [if_neg h0] at h2
      by_cases hE : (rebalanceOrder s.validators).isEmpty
      · rw [if_pos hE] at h2
        rw [h1] at h2
        injection h2 with h2
        exact le_of_eq (congrArg effTarget h2)
      · rw [if_neg hE] at h2
        exact rebalanced_mono s hlam j v v2 h1 h2

/-- C10 counterexample: a non-removed validator with the misaligned target
1.4 lamports loses 0.4 lamports of target under `autoRebalance` when a
removed validator frees a twentieth of a lamport — targets can decrease. -/
theorem rebalance_mono_cex :
    (cexMono.validators.map (fun v => v.action)).get? 0 = some (some VAction.keep) ∧
    keyAt (autoRebalance cexMono).validators 0 < keyAt cexMono.validators 0 := by
  constructor
  · rfl
  · norm_num +decide [autoRebalance, rebalancedValidators, distributed, distribute, residue,
      targetPer, rebalanceOrder, activeIndices, activeAt, cexMono, mkV, isRemoved,
      removedStakeOf, List.insertionSort, List.orderedInsert, idxLe, keyAt, effTarget,
      roundToLamports, round_eq, List.range_succ]

/-- C10 witness: at the lamport-aligned state `wRemState` the frame equations
hold and the surviving validator's target does not decrease. -/
theorem rebalance_frame_mono_witness :
    (∀ v ∈ wRemState.validators, Lam (effTarget v)) ∧
    (autoRebalance wRemState).newValidators = wRemState.newValidators ∧
    (∀ j v v2, wRemState.validators.get? j = some v →
      (autoRebalance wRemState).validators.get? j = some v2 →
      effTarget v ≤ effTarget v2) :=
  ⟨wRemState_lam, (rebalance_frame_mono wRemState).1,
    (rebalance_frame_mono wRemState).2.2.2.2.2 wRemState_lam⟩


/-! ### Claim theorems about the feasibility validator and the operations -/

/-- C2: `validate` accepts exactly when (a) the newly sourced stake — the
positive target-minus-current deltas over non-removed existing validators
plus all proposed targets — fits in the reserve plus removed plus decreased
stake with `0.01` tolerance, and (b) the total target covers one unit per
active validator with `0.01` tolerance. -/
theorem validate_feasibility_iff (s : EditState) :
    validate s = true ↔
      (((activeFilter s.validators).map (fun v => max (effTarget v - v.activeBalance) 0)).sum
          + (s.newValidators.map newEffTarget).sum
        ≤ s.reserveBalance + removedStakeOf s
          + ((activeFilter s.validators).map (fun v => max (v.activeBalance - effTarget v) 0)).sum
          + 1 / 100)
      ∧ (((activeFilter s.validators).length : ℚ) + (s.newValidators.length : ℚ) - 1 / 100
          ≤ sumTActive s.validators + (s.newValidators.map newEffTarget).sum) := by
  have hmax : ∀ f : VRec → ℚ, (fun v => if 0 < f v then f v else 0) = fun v => max (f v) 0 := by
    intro f
    funext v
    rcases le_or_lt (f v) 0 with h | h
    · rw [if_neg (not_lt.mpr h), max_eq_right h]
    · rw [if_pos h, max_eq_left h.le]
  simp only [validate]
  rw [hmax (fun v => v.activeBalance - effTarget v), hmax (fun v => effTarget v - v.activeBalance)]
  split_ifs with h1 h2
  · simp only [false_iff, not_and]
    intro hA
    exfalso
    push_cast at h1
    linarith
  · simp only [false_iff, not_and]
    intro hA hB
    push_cast at h2
    linarith
  · simp only [true_iff]
    push_cast at h1 h2
    constructor
    · linarith
    · linarith


theorem get?_set_self (l : List VRec) (i : Nat) (a v : VRec) (h : l.get? i = some v) :
    (l.set i a).get? i = some a := by
  rw [List.get?_set_eq, h]
  rfl

/-- C3 (amended): invariant I2 — every existing validator marked `remove` has
target balance `0` — is preserved by `markRemoved`, `undoRemoved`,
`addToTarget`, `subtractFromTarget`, `addValidator` and `autoRebalance`.
`setTarget` is excluded: it writes any index without a lifecycle check and
can install a nonzero target on a removed validator. -/
theorem core_ops_preserve_I2 (s : EditState) (h : I2 s) :
    (∀ i, I2 (markRemoved s i).1) ∧
    (∀ i, I2 (undoRemoved s i).1) ∧
    (∀ i d, I2 (addToTarget s i d).1) ∧
    (∀ i d, I2 (subtractFromTarget s i d).1) ∧
    (∀ idt nm, I2 (addValidator s idt nm).1) ∧
    I2 (autoRebalance s) := by
  refine ⟨?_, ?_, ?_, ?_, ?_, ?_⟩
  · intro i
    unfold markRemoved
    cases hv : s.validators.get? i with
    | none => exact h
    | some v =>
      dsimp only
      intro w hw hrem
      rcases List.mem_or_eq_of_mem_set hw with h1 | h1
      · exact h w h1 hrem
      · subst h1
        rfl
  · intro i
    unfold undoRemoved
    cases hv : s.validators.get? i with
    | none => exact h
    | some v =>
      dsimp only
      intro w hw hrem
      rcases List.mem_or_eq_of_mem_set hw with h1 | h1
      · exact h w h1 hrem
      · subst h1
        exact absurd hrem (by simp)
  · intro i d
    unfold addToTarget
    cases hv : s.validators.get? i with
    | none =>
      dsimp only
      cases hnv : s.newValidators.get? (i - s.validators.length) with
      | none => exact h
      | some nv => exact h
    | some v =>
      dsimp only
      by_cases hr : isRemoved v
      · rw [if_pos hr]
        exact h
      · rw [if_neg hr]
        intro w hw hrem
        rcases List.mem_or_eq_of_mem_set hw with h1 | h1
        · exact h w h1 hrem
        · subst h1
          exact absurd hrem ((isRemoved_false_iff v).mp (by simpa using hr))
  · intro i d
    unfold subtractFromTarget
    cases hv : s.validators.get? i with
    | none =>
      dsimp only
      cases hnv : s.newValidators.get? (i - s.validators.length) with
      | none => exact h
      | some nv =>
        dsimp only
        by_cases hneg : roundToLamports (newEffTarget nv - d) < 0
        · rw [if_pos hneg]
          exact h
        · rw [if_neg hneg]
          exact h
    | some v =>
      dsimp only
      by_cases hr : isRemoved v
      · rw [if_pos hr]
        exact h
      · rw [if_neg hr]
        by_cases hneg : roundToLamports (effTarget v - d) < 0
        · rw [if_pos hneg]
          exact h
        · rw [if_neg hneg]
          intro w hw hrem
          rcases List.mem_or_eq_of_mem_set hw with h1 | h1
          · exact h w h1 hrem
          · subst h1
            exact absurd hrem ((isRemoved_false_iff v).mp (by simpa using hr))
  · intro idt nm
    unfold addValidator
    by_cases hdup : (s.validators.any (fun v => v.voteAccount == idt)
        || s.newValidators.any (fun v => v.voteAccount == idt)) = true
    · rw [if_pos hdup]
      exact h
    · rw [if_neg hdup]
      exact h
  · intro w hw hrem
    rcases List.mem_iff_get?.mp hw with ⟨j, hj⟩
    rcases autoRebalance_validators_pointwise s j with hcase | ⟨hm, v0, w0, hv0, hw0, hsh⟩
    · rw [hcase] at hj
      exact h w (List.get?_mem hj) hrem
    · have hww : w0 = w := by
        rw [hj] at hw0
        injection hw0 with hh
        exact hh.symm
      subst hww
      exfalso
      rcases (mem_rebalanceOrder _ _).mp hm with ⟨vv, hvv, hr⟩
      rw [hv0] at hvv
      injection hvv with hvv
      rw [← hvv] at hr
      have hact := eqButTb_action hsh
      rw [hrem] at hact
      exact (isRemoved_false_iff v0).mp hr hact.symm

/-- C3 counterexample: `setTarget 0 5` on a state whose validator 0 is marked
`remove` with target 0 succeeds and leaves a removed validator with target 5,
violating I2 — refuting preservation for the full operation list. -/
theorem setTarget_breaks_I2 :
    I2 cexSetTarget ∧ (setTarget cexSetTarget 0 5).2 = none ∧
      ¬ I2 (setTarget cexSetTarget 0 5).1 := by
  refine ⟨?_, rfl, ?_⟩
  · intro v hv hrem
    simp only [cexSetTarget, List.mem_cons, List.not_mem_nil, or_false] at hv
    rcases hv with rfl | rfl
    · rfl
    · exact absurd hrem (by simp [mkV])
  · intro hc
    have hmem : ({ (mkV "a" 0 (some 0) (some VAction.remove)) with targetBalance := some (5:ℚ) } : VRec)
        ∈ (setTarget cexSetTarget 0 5).1.validators :=
      List.mem_set _ 0 (by norm_num [cexSetTarget]) _
    have h0 := hc _ hmem rfl
    norm_num [effTarget] at h0

/-- C3 witness: at the concrete removed-validator state satisfying I2, each
of the six amended operations preserves I2. -/
theorem core_ops_preserve_I2_witness :
    I2 cexSetTarget ∧ I2 (markRemoved cexSetTarget 0).1 ∧ I2 (autoRebalance cexSetTarget) := by
  have hI : I2 cexSetTarget := by
    intro v hv hrem
    simp only [cexSetTarget, List.mem_cons, List.not_mem_nil, or_false] at hv
    rcases hv with rfl | rfl
    · rfl
    · exact absurd hrem (by simp [mkV])
  exact ⟨hI, (core_ops_preserve_I2 cexSetTarget hI).1 0,
    (core_ops_preserve_I2 cexSetTarget hI).2.2.2.2.2⟩

/-- C4: `markRemoved i` leaves the record at `i` with action `remove` and
target `0` and is idempotent; `undoRemoved i` — whether or not a removal
happened first — resets the record to action `keep` with target equal to its
current balance, discarding any manual edit. -/
theorem remove_undo_postconditions (s : EditState) (i : Nat)
    (hi : i < s.validators.length) :
    (∃ v1, (markRemoved s i).1.validators.get? i = some v1 ∧
      v1.action = some VAction.remove ∧ v1.targetBalance = some 0) ∧
    (markRemoved (markRemoved s i).1 i).1 = (markRemoved s i).1 ∧
    (∃ v0 v2, s.validators.get? i = some v0 ∧
      (undoRemoved s i).1.validators.get? i = some v2 ∧
      v2.action = some VAction.keep ∧ v2.targetBalance = some v0.activeBalance) ∧
    (∃ v0 v3, s.validators.get? i = some v0 ∧
      (undoRemoved (markRemoved s i).1 i).1.validators.get? i = some v3 ∧
      v3.action = some VAction.keep ∧ v3.targetBalance = some v0.activeBalance) := by
  obtain ⟨v, hv⟩ : ∃ v, s.validators.get? i = some v := ⟨_, List.get?_eq_get hi⟩
  have hM : (markRemoved s i).1.validators =
      s.validators.set i { v with action := some VAction.remove, targetBalance := some 0 } := by
    unfold markRemoved
    rw [hv]
  have hMg : (markRemoved s i).1.validators.get? i =
      some { v with action := some VAction.remove, targetBalance := some 0 } := by
    rw [hM]
    exact get?_set_self _ _ _ _ hv
  refine ⟨⟨_, hMg, rfl, rfl⟩, ?_, ?_, ?_⟩
  · have hMS : markRemoved s i =
        ({ s with validators := s.validators.set i { v with action := some VAction.remove, targetBalance := some 0 } }, none) := by
      unfold markRemoved
      rw [hv]
    rw [hMS]
    unfold markRemoved
    dsimp only
    rw [get?_set_self _ _ _ _ hv]
    dsimp only
    rw [List.set_set]
  · have hg : (undoRemoved s i).1.validators.get? i =
        some { v with action := some VAction.keep, targetBalance := some v.activeBalance } := by
      unfold undoRemoved
      rw [hv]
      dsimp only
      exact get?_set_self _ _ _ _ hv
    exact ⟨v, _, hv, hg, rfl, rfl⟩
  · have hg : (undoRemoved (markRemoved s i).1 i).1.validators.get? i =
        some { ({ v with action := some VAction.remove, targetBalance := some 0 } : VRec) with action := some VAction.keep, targetBalance := some ({ v with action := some VAction.remove, targetBalance := some 0 } : VRec).activeBalance } := by
      unfold undoRemoved
      rw [hMg]
      dsimp only
      rw [hM, List.set_set]
      exact get?_set_self _ _ _ _ hv
    exact ⟨v, _, hv, hg, rfl, rfl⟩

/-- C4 witness: at the concrete two-validator state, removal followed by a
second removal is the same state, and undo restores the current balance. -/
theorem remove_undo_postconditions_witness :
    wState.validators.length = 2 ∧
    (markRemoved (markRemoved wState 0).1 0).1 = (markRemoved wState 0).1 :=
  ⟨rfl, (remove_undo_postconditions wState 0 (by decide)).2.1⟩


/-- C5: `addToTarget` and `subtractFromTarget` refuse a record marked
`remove` with `InvalidOperation`, leaving the state unchanged;
`subtractFromTarget` also refuses, state unchanged, when the rounded result
would be negative; on success the new target is
`roundToLamports(current ± delta)`, with `roundToLamports(x) =
round(x·10⁹)/10⁹`. -/
theorem adjust_target_contract (s : EditState) (i : Nat) (d : ℚ)
    (hnew : ∀ v ∈ s.newValidators, v.action = some VAction.add)
    (hi : i < s.validators.length + s.newValidators.length) :
    ((∃ v, combinedRecAt s i = some v ∧ v.action = some VAction.remove) →
      addToTarget s i d = (s, some OpError.invalidOperation) ∧
      subtractFromTarget s i d = (s, some OpError.invalidOperation)) ∧
    ((∀ v, combinedRecAt s i = some v → v.action ≠ some VAction.remove) →
      ((addToTarget s i d).2 = none ∧
        targetAt (addToTarget s i d).1 i = some (roundToLamports (combinedCurrent s i + d))) ∧
      (roundToLamports (combinedCurrent s i - d) < 0 →
        subtractFromTarget s i d = (s, some OpError.invalidOperation)) ∧
      (¬ roundToLamports (combinedCurrent s i - d) < 0 →
        (subtractFromTarget s i d).2 = none ∧
        targetAt (subtractFromTarget s i d).1 i =
          some (roundToLamports (combinedCurrent s i - d)))) ∧
    (∀ x : ℚ, roundToLamports x = ((round (x * 1000000000) : ℤ) : ℚ) / 1000000000) := by
  refine ⟨?_, ?_, fun x => rfl⟩
  · rintro ⟨v0, hv0, hrem⟩
    cases hv : s.validators.get? i with
    | some v =>
      have hvv : v = v0 := by
        unfold combinedRecAt at hv0
        rw [hv] at hv0
        injection hv0
      subst hvv
      have hr : isRemoved v := (isRemoved_iff v).mpr hrem
      constructor
      · unfold addToTarget
        rw [hv]
        dsimp only
        rw [if_pos hr]
      · unfold subtractFromTarget
        rw [hv]
        dsimp only
        rw [if_pos hr]
    | none =>
      exfalso
      have hlen : s.validators.length ≤ i := List.get?_eq_none.mp hv
      have hilt : i - s.validators.length < s.newValidators.length := by omega
      obtain ⟨nv, hnv⟩ : ∃ nv, s.newValidators.get? (i - s.validators.length) = some nv :=
        ⟨_, List.get?_eq_get hilt⟩
      have hvv : nv = v0 := by
        unfold combinedRecAt at hv0
        rw [hv, hnv] at hv0
        injection hv0
      have hadd : v0.action = some VAction.add := by
        rw [← hvv]
        exact hnew nv (List.get?_mem hnv)
      rw [hadd] at hrem
      exact absurd hrem (by simp)
  · intro hnr
    cases hv : s.validators.get? i with
    | some v =>
      have hv0 : combinedRecAt s i = some v := by
        unfold combinedRecAt
        rw [hv]
      have hr : isRemoved v = false := (isRemoved_false_iff v).mpr (hnr v hv0)
      have hrn : ¬ (isRemoved v = true) := by
        rw [hr]
        exact Bool.false_ne_true
      have hcur : combinedCurrent s i = effTarget v := by
        unfold combinedCurrent
        rw [hv]
      refine ⟨?_, ?_, ?_⟩
      · unfold addToTarget
        rw [hv]
        dsimp only
        rw [if_neg hrn]
        refine ⟨rfl, ?_⟩
        unfold targetAt combinedRecAt
        dsimp only
        rw [get?_set_self _ _ _ _ hv, hcur]
      · intro hneg
        rw [hcur] at hneg
        unfold subtractFromTarget
        rw [hv]
        dsimp only
        rw [if_neg hrn]
        rw [if_pos hneg]
      · intro hneg
        rw [hcur] at hneg
        unfold subtractFromTarget
        rw [hv]
        dsimp only
        rw [if_neg hrn]
        rw [if_neg hneg]
        refine ⟨rfl, ?_⟩
        unfold targetAt combinedRecAt
        dsimp only
        rw [get?_set_self _ _ _ _ hv, hcur]
    | none =>
      have hlen : s.validators.length ≤ i := List.get?_eq_none.mp hv
      have hilt : i - s.validators.length < s.newValidators.length := by omega
      obtain ⟨nv, hnv⟩ : ∃ nv, s.newValidators.get? (i - s.validators.length) = some nv :=
        ⟨_, List.get?_eq_get hilt⟩
      have hcur : combinedCurrent s i = newEffTarget nv := by
        unfold combinedCurrent
        rw [hv, hnv]
      refine ⟨?_, ?_, ?_⟩
      · unfold addToTarget
        rw [hv]
        dsimp only
        rw [hnv]
        dsimp only
        refine ⟨rfl, ?_⟩
        unfold targetAt combinedRecAt
        dsimp only
        rw [hv]
        dsimp only
        rw [get?_set_self _ _ _ _ hnv, hcur]
      · intro hneg
        rw [hcur] at hneg
        unfold subtractFromTarget
        rw [hv]
        dsimp only
        rw [hnv]
        dsimp only
        rw [if_pos hneg]
      · intro hneg
        rw [hcur] at hneg
        unfold subtractFromTarget
        rw [hv]
        dsimp only
        rw [hnv]
        dsimp only
        rw [if_neg hneg]
        refine ⟨rfl, ?_⟩
        unfold targetAt combinedRecAt
        dsimp only
        rw [hv]
        dsimp only
        rw [get?_set_self _ _ _ _ hnv, hcur]

/-- C5 witness: at the two-validator state, adding 7 to validator 0 succeeds
with target rounded from `1000 + 7`, and subtracting 2000 is refused. -/
theorem adjust_target_contract_witness :
    (∀ v ∈ wState.newValidators, v.action = some VAction.add) ∧
    wState.validators.length + wState.newValidators.length = 2 ∧
    (addToTarget wState 0 7).2 = none ∧
    targetAt (addToTarget wState 0 7).1 0 = some (roundToLamports (combinedCurrent wState 0 + 7)) ∧
    subtractFromTarget wState 0 2000 = (wState, some OpError.invalidOperation) := by
  have hnew : ∀ v ∈ wState.newValidators, v.action = some VAction.add := by
    intro v hv
    simp [wState] at hv
  have hi : (0:Nat) < wState.validators.length + wState.newValidators.length := by decide
  have hnr : ∀ v, combinedRecAt wState 0 = some v → v.action ≠ some VAction.remove := by
    intro v hv
    have : v = mkV "A" 1000 (some 1000) (some VAction.keep) := by
      have hr : combinedRecAt wState 0 = some (mkV "A" 1000 (some 1000) (some VAction.keep)) := rfl
      rw [hr] at hv
      injection hv with hh
      exact hh.symm
    rw [this]
    simp [mkV]
  have h := (adjust_target_contract wState 0 7 hnew hi).2.1 hnr
  have h2 := (adjust_target_contract wState 0 2000 hnew hi).2.1 hnr
  refine ⟨hnew, rfl, h.1.1, h.1.2, ?_⟩
  apply h2.2.1
  have : combinedCurrent wState 0 = 1000 := rfl
  rw [this]
  norm_num [roundToLamports, round_eq]


/-- C6: `addValidator` refuses an identity already present in either list
with `DuplicateValidator`, leaving the state unchanged; on success it appends
exactly one fresh record with zero balances and action `add`; a second call
with the same identity fails, leaving exactly one entry for it. -/
theorem addValidator_contract (s : EditState) (idt : String) (nm nm2 : Option String) :
    ((s.validators.any (fun v => v.voteAccount == idt)
        || s.newValidators.any (fun v => v.voteAccount == idt)) = true →
      addValidator s idt nm = (s, some OpError.duplicateValidator)) ∧
    ((s.validators.any (fun v => v.voteAccount == idt)
        || s.newValidators.any (fun v => v.voteAccount == idt)) = false →
      addValidator s idt nm =
        ({ s with newValidators := s.newValidators ++ [freshValidator idt nm] }, none) ∧
      (freshValidator idt nm).activeBalance = 0 ∧
      (freshValidator idt nm).targetBalance = some 0 ∧
      (freshValidator idt nm).action = some VAction.add ∧
      (addValidator (addValidator s idt nm).1 idt nm2).2 = some OpError.duplicateValidator ∧
      (addValidator (addValidator s idt nm).1 idt nm2).1.newValidators.countP
        (fun v => v.voteAccount == idt) = 1) := by
  constructor
  · intro hdup
    unfold addValidator
    rw [if_pos hdup]
  · intro habs
    have hnotdup : ¬ ((s.validators.any (fun v => v.voteAccount == idt)
        || s.newValidators.any (fun v => v.voteAccount == idt)) = true) := by
      rw [habs]
      exact Bool.false_ne_true
    have hfirst : addValidator s idt nm =
        ({ s with newValidators := s.newValidators ++ [freshValidator idt nm] }, none) := by
      unfold addValidator
      rw [if_neg hnotdup]
    have hself : ((freshValidator idt nm).voteAccount == idt) = true := by
      unfold freshValidator
      exact beq_self_eq_true idt
    have hdup2 : (({ s with newValidators := s.newValidators ++ [freshValidator idt nm] } : EditState).validators.any (fun v => v.voteAccount == idt)
        || ({ s with newValidators := s.newValidators ++ [freshValidator idt nm] } : EditState).newValidators.any (fun v => v.voteAccount == idt)) = true := by
      dsimp only
      rw [List.any_append]
      have hone : List.any [freshValidator idt nm] (fun v => v.voteAccount == idt) = true := by
        rw [List.any_cons, hself]
        rfl
      rw [hone]
      simp
    have hsecond : addValidator (addValidator s idt nm).1 idt nm2 =
        ((addValidator s idt nm).1, some OpError.duplicateValidator) := by
      rw [hfirst]
      dsimp only
      unfold addValidator
      rw [if_pos hdup2]
    have hBfalse : s.newValidators.any (fun v => v.voteAccount == idt) = false := by
      cases hA : s.validators.any (fun v => v.voteAccount == idt) <;>
        cases hB : s.newValidators.any (fun v => v.voteAccount == idt) <;>
          rw [hA, hB] at habs <;> first | rfl | exact absurd habs (by simp)
    have hcount0 : s.newValidators.countP (fun v => v.voteAccount == idt) = 0 :=
      List.countP_eq_zero.mpr (List.any_eq_false.mp hBfalse)
    refine ⟨hfirst, rfl, rfl, rfl, ?_, ?_⟩
    · rw [hsecond]
    · rw [hsecond]
      dsimp only
      rw [hfirst]
      dsimp only
      rw [List.countP_append, hcount0, List.countP_cons, List.countP_nil, hself]
      rfl

/-- C6 witness: adding identity `N` to the fresh pool twice leaves one entry
and the second call reports `DuplicateValidator`. -/
theorem addValidator_contract_witness :
    ((wState.validators.any (fun v => v.voteAccount == "N")
        || wState.newValidators.any (fun v => v.voteAccount == "N")) = false) ∧
    (addValidator (addValidator wState "N" none).1 "N" none).2 =
      some OpError.duplicateValidator ∧
    (addValidator (addValidator wState "N" none).1 "N" none).1.newValidators.countP
      (fun v => v.voteAccount == "N") = 1 := by
  have habs : (wState.validators.any (fun v => v.voteAccount == "N")
      || wState.newValidators.any (fun v => v.voteAccount == "N")) = false := by decide
  have h := (addValidator_contract wState "N" none none).2 habs
  exact ⟨habs, h.2.2.2.2.1, h.2.2.2.2.2⟩

/-- C7: every command invocation that reports an error — invalid index,
invalid operation or duplicate validator — returns the state exactly as it
was: no partial mutation on any error path. -/
theorem op_errors_atomic (s : EditState) (op : Op) (e : OpError)
    (h : (applyOp s op).2 = some e) : (applyOp s op).1 = s := by
  cases op with
  | opMarkRemoved i =>
    dsimp only [applyOp] at h ⊢
    unfold markRemoved at h ⊢
    cases hv : s.validators.get? i with
    | none => rfl
    | some v =>
      rw [hv] at h
      simp at h
  | opUndoRemoved i =>
    dsimp only [applyOp] at h ⊢
    unfold undoRemoved at h ⊢
    cases hv : s.validators.get? i with
    | none => rfl
    | some v =>
      rw [hv] at h
      simp at h
  | opSetTarget i amount =>
    dsimp only [applyOp] at h ⊢
    unfold setTarget at h ⊢
    cases hv : s.validators.get? i with
    | some v =>
      rw [hv] at h
      simp at h
    | none =>
      rw [hv] at h
      cases hnv : s.newValidators.get? (i - s.validators.length) with
      | some nv =>
        rw [hnv] at h
        simp at h
      | none => rfl
  | opAddToTarget i d =>
    dsimp only [applyOp] at h ⊢
    unfold addToTarget at h ⊢
    cases hv : s.validators.get? i with
    | some v =>
      rw [hv] at h
      dsimp only at h ⊢
      by_cases hr : isRemoved v = true
      · rw [if_pos hr]
      · rw [if_neg hr] at h
        simp at h
    | none =>
      rw [hv] at h
      cases hnv : s.newValidators.get? (i - s.validators.length) with
      | some nv =>
        rw [hnv] at h
        simp at h
      | none => rfl
  | opSubtractFromTarget i d =>
    dsimp only [applyOp] at h ⊢
    unfold subtractFromTarget at h ⊢
    cases hv : s.validators.get? i with
    | some v =>
      rw [hv] at h
      dsimp only at h ⊢
      by_cases hr : isRemoved v = true
      · rw [if_pos hr]
      · rw [if_neg hr] at h ⊢
        by_cases hneg : roundToLamports (effTarget v - d) < 0
        · rw [if_pos hneg]
        · rw [if_neg hneg] at h
          simp at h
    | none =>
      rw [hv] at h
      dsimp only at h ⊢
      cases hnv : s.newValidators.get? (i - s.validators.length) with
      | some nv =>
        rw [hnv] at h
        dsimp only at h ⊢
        by_cases hneg : roundToLamports (newEffTarget nv - d) < 0
        · rw [if_pos hneg]
        · rw [if_neg hneg] at h
          simp at h
      | none => rfl
  | opAddValidator idt nm =>
    dsimp only [applyOp] at h ⊢
    unfold addValidator at h ⊢
    by_cases hdup : (s.validators.any (fun v => v.voteAccount == idt)
        || s.newValidators.any (fun v => v.voteAccount == idt)) = true
    · rw [if_pos hdup]
    · rw [if_neg hdup] at h
      simp at h

/-- C7 witness: removing at the out-of-range index 5 reports `InvalidIndex`
and returns the state unchanged. -/
theorem op_errors_atomic_witness :
    (applyOp wState (Op.opMarkRemoved 5)).2 = some OpError.invalidIndex ∧
    (applyOp wState (Op.opMarkRemoved 5)).1 = wState :=
  ⟨rfl, op_errors_atomic wState (Op.opMarkRemoved 5) OpError.invalidIndex rfl⟩

end Valence
